import Mathlib

/-!
Verification of the XYZ file-format reader and writer (iodata/formats/xyz.py).

The embedding models Python text as `String`/`List Char`, floating-point
coordinates as rationals, and the collaborating line source as a list of
remaining lines together with a 1-based count of lines already consumed.
Fixed-point formatting with ten fractional digits is modelled with
round-half-even rounding on the exact rational value, matching the rounding
of the decimal formatting applied by the implementation language.
-/

deriving instance DecidableEq for Except

namespace Xyz

/-! ## Characters and digit strings -/

/-- Decimal digit character for a value below ten. -/
def digitChar (d : Nat) : Char := Char.ofNat (48 + d)

/-- Numeric value of a decimal digit character. -/
def digitVal (c : Char) : Nat := c.toNat - 48

/-- Whitespace as recognised by the str.split, str.strip and int/float
parsing operations of the implementation language (ASCII subset). -/
def pyWS (c : Char) : Bool :=
  c == ' ' || c == '\t' || c == '\n' || c == '\r' || c == '\x0b' || c == '\x0c'

/-- Digit accumulator for the decimal representation, structurally
recursive on a fuel bound so that the kernel evaluates it; any fuel above
the number itself is enough. -/
def natDigitsAux : Nat → Nat → List Char → List Char
  | 0, _, acc => acc
  | fuel + 1, n, acc =>
    if n < 10 then digitChar n :: acc
    else natDigitsAux fuel (n / 10) (digitChar (n % 10) :: acc)

/-- Decimal digits of a natural number, most significant first; the digits
written by printing an integer. -/
def natDigits (n : Nat) : List Char := natDigitsAux (n + 1) n []

/-- Value of a list of decimal digit characters. -/
def digitsToNat (l : List Char) : Nat :=
  l.foldl (fun a c => a * 10 + digitVal c) 0

/-- Parse a nonempty all-digit character list as a natural number. -/
def parseNatChars (l : List Char) : Option Nat :=
  if l ≠ [] ∧ l.all Char.isDigit then some (digitsToNat l) else none

/-- Strip leading and trailing whitespace, as str.strip does. -/
def stripChars (l : List Char) : List Char :=
  ((l.dropWhile pyWS).reverse.dropWhile pyWS).reverse

/-- Python str.strip with the default whitespace set. -/
def pyStrip (s : String) : String := String.mk (stripChars s.data)

/-- Whitespace-run splitting of str.split with no argument: tokens are the
maximal runs of non-whitespace characters.  The first argument is the
remaining input, the second the reversed current token. -/
def wsplitAux : List Char → List Char → List (List Char)
  | [], cur => if cur.isEmpty then [] else [cur.reverse]
  | c :: cs, cur =>
    if pyWS c then
      if cur.isEmpty then wsplitAux cs [] else cur.reverse :: wsplitAux cs []
    else wsplitAux cs (c :: cur)

/-- Python str.split with no argument. -/
def pySplit (s : String) : List String :=
  (wsplitAux s.data []).map String.mk

/-- Python str.title restricted to ASCII letters: a letter is uppercased
when it follows a non-letter and lowercased otherwise. -/
def pyTitleAux : Bool → List Char → List Char
  | _, [] => []
  | prev, c :: cs =>
    (if c.isAlpha then (if prev then c.toLower else c.toUpper) else c) ::
      pyTitleAux c.isAlpha cs

/-- Python str.title. -/
def pyTitle (s : String) : String := String.mk (pyTitleAux false s.data)

/-! ## Numeric parsing, the int and float constructors -/

/-- Python int(s): strip whitespace, optional sign, then decimal digits. -/
def parseIntChars (l : List Char) : Option Int :=
  match stripChars l with
  | [] => none
  | c :: r =>
    if c = '-' then (parseNatChars r).map (fun n => -(n : Int))
    else if c = '+' then (parseNatChars r).map (fun n => (n : Int))
    else (parseNatChars (c :: r)).map (fun n => (n : Int))

/-- Python int applied to a line of text. -/
def parseInt (s : String) : Option Int := parseIntChars s.data

/-- Unsigned fixed-point part of Python float(s): an integer digit run,
optionally followed by a point and a fractional digit run, at least one
digit in total.  The exponent and special forms accepted by float are not
used by this file format and are outside the model. -/
def parseUFloat (l : List Char) : Option ℚ :=
  let ip := l.takeWhile Char.isDigit
  match l.dropWhile Char.isDigit with
  | [] => if ip = [] then none else some ((digitsToNat ip : ℚ))
  | c :: fr =>
    if c = '.' then
      if (ip ≠ [] ∨ fr ≠ []) ∧ fr.all Char.isDigit then
        some (mkRat (digitsToNat ip * 10 ^ fr.length + digitsToNat fr) (10 ^ fr.length))
      else none
    else none

/-- Python float(s) on fixed-point decimal text: strip, optional sign,
unsigned fixed-point number. -/
def parseFloatChars (l : List Char) : Option ℚ :=
  match stripChars l with
  | [] => none
  | c :: r =>
    if c = '-' then (parseUFloat r).map (fun q => -q)
    else if c = '+' then parseUFloat r
    else parseUFloat (c :: r)

/-- Python float applied to a token. -/
def parseFloat (s : String) : Option ℚ := parseFloatChars s.data

/-! ## Fixed-point formatting with ten fractional digits -/

/-- Multiplication on the rationals written through integer arithmetic so
that the kernel evaluates it; it agrees with the standard multiplication
of the field, see the lemma stating the equality below. -/
def qmul (a b : ℚ) : ℚ := Rat.divInt (a.num * b.num) (a.den * b.den)

/-- Division on the rationals written through integer arithmetic so that
the kernel evaluates it; it agrees with the standard division of the
field, division by zero yielding zero. -/
def qdiv (a b : ℚ) : ℚ := Rat.divInt (a.num * b.den) (a.den * b.num)

/-- Magnitude of a rational scaled to an integer count of 10^-10 units,
rounded to the nearest integer with ties to the even neighbour: the
rounding applied when formatting an exact value with ten fractional
digits.  The scaled magnitude is the exact fraction t over d below. -/
def fixedScaled (q : ℚ) : Nat :=
  let t := q.num.natAbs * 10 ^ 10
  let d := q.den
  if 2 * (t % d) < d then t / d
  else if d < 2 * (t % d) then t / d + 1
  else if (t / d) % 2 = 0 then t / d else t / d + 1

/-- Pad a digit list on the left with zeros up to the given width. -/
def padZeros (k : Nat) (l : List Char) : List Char :=
  List.replicate (k - l.length) '0' ++ l

/-- Digits of the percent-.10f fixed-point form of a rational: optional
minus sign, integer digits, a point, exactly ten fractional digits. -/
def fmtFixedCore (q : ℚ) : List Char :=
  let m := fixedScaled q
  let body := natDigits (m / 10 ^ 10) ++ '.' :: padZeros 10 (natDigits (m % 10 ^ 10))
  if q < 0 then '-' :: body else body

/-- Pad on the left with spaces up to the given width. -/
def padLeftSpaces (k : Nat) (l : List Char) : List Char :=
  List.replicate (k - l.length) ' ' ++ l

/-- Pad on the right with spaces up to the given width. -/
def padRightSpaces (k : Nat) (l : List Char) : List Char :=
  l ++ List.replicate (k - l.length) ' '

/-- The 15-wide right-justified fixed-point field of the atom line format. -/
def fmtField15 (q : ℚ) : List Char := padLeftSpaces 15 (fmtFixedCore q)

/-- The rational value reproduced by parsing the ten-digit fixed-point text
of a value: the rounding the text format induces. -/
def fixedRound10 (q : ℚ) : ℚ :=
  (if q < 0 then -1 else 1) * (fixedScaled q : ℚ) / 10 ^ 10

/-- Decimal text of a natural number, as printed for the atom count. -/
def natRepr (n : Nat) : String := String.mk (natDigits n)

/-! ## Collaborator interfaces -/

/-- Modelled from the spec: the element table of iodata/periodic.py is an
external bidirectional mapping between title-cased element symbols and
positive integer atomic numbers, read-only and loaded once.  The table is
rendered here by its first thirty-six entries. -/
def elementTable : List (String × Int) :=
  [("H", 1), ("He", 2), ("Li", 3), ("Be", 4), ("B", 5), ("C", 6), ("N", 7),
   ("O", 8), ("F", 9), ("Ne", 10), ("Na", 11), ("Mg", 12), ("Al", 13),
   ("Si", 14), ("P", 15), ("S", 16), ("Cl", 17), ("Ar", 18), ("K", 19),
   ("Ca", 20), ("Sc", 21), ("Ti", 22), ("V", 23), ("Cr", 24), ("Mn", 25),
   ("Fe", 26), ("Co", 27), ("Ni", 28), ("Cu", 29), ("Zn", 30), ("Ga", 31),
   ("Ge", 32), ("As", 33), ("Se", 34), ("Br", 35), ("Kr", 36)]

/-- Symbol-to-number direction of the element table; a missing key is the
not-found result that the loader catches. -/
def sym2num (s : String) : Option Int :=
  (elementTable.find? (fun p => p.1 == s)).map (fun p => p.2)

/-- Number-to-symbol direction of the element table; a missing key is an
uncaught key error in the writer. -/
def num2sym (n : Int) : Option String :=
  (elementTable.find? (fun p => p.2 == n)).map (fun p => p.1)

/-- Modelled from the spec: the line source of iodata/utils.py supplies
sequential text lines and tracks the count of lines already consumed, the
1-based number of the line most recently returned. -/
structure LineIterator where
  lines : List String
  lineno : Nat
deriving DecidableEq

/-- Read the next line, or signal exhaustion at end of input. -/
def LineIterator.next : LineIterator → Option (String × LineIterator)
  | ⟨[], _⟩ => none
  | ⟨l :: ls, n⟩ => some (l, ⟨ls, n + 1⟩)

/-- The error signals the loader and dumper can raise: stream exhaustion,
a numeric-parse failure carrying the offending token, a sequence index out
of range, a table lookup failure, and the position-tagged format error that
the line source offers through its error-reporting mechanism. -/
inductive PyErr where
  | stopIteration : PyErr
  | valueError : String → PyErr
  | indexError : PyErr
  | keyError : String → PyErr
  | fileFormatError : Nat → String → PyErr
deriving DecidableEq

/-- Whether an error value carries a source-position tag. -/
def PyErr.hasPositionTag : PyErr → Bool
  | .fileFormatError _ _ => true
  | _ => false

/-- The geometry record produced by the loader and consumed by the dumper:
a title, the atomic numbers in order, and the coordinates in the internal
length unit. -/
structure XYZFrame where
  title : String
  atnums : List Int
  atcoords : List (ℚ × ℚ × ℚ)
deriving DecidableEq

/-- The atom count, derived from the length of the number sequence. -/
def XYZFrame.natom (d : XYZFrame) : Nat := d.atnums.length

/-! ## The single-frame reader -/

/-- Element resolution for token 0 of an atom line: first the title-cased
symbol lookup, and only on a not-found result the direct integer parse,
whose failure propagates. -/
def resolveElement (w0 : String) : Except PyErr Int :=
  match sym2num (pyTitle w0) with
  | some n => .ok n
  | none =>
    match parseInt w0 with
    | some m => .ok m
    | none => .error (.valueError w0)

/-- Processing of the token list of one atom line: token 0 resolves to the
atomic number, tokens 1 to 3 parse as coordinates in Angstrom and are
multiplied by the length-unit constant; a missing token is an index error
and a failed numeric parse a value error, in evaluation order. -/
def loadWords (ang : ℚ) (words : List String) : Except PyErr (Int × ℚ × ℚ × ℚ) :=
  match words.get? 0 with
  | none => .error .indexError
  | some w0 =>
    match resolveElement w0 with
    | .error e => .error e
    | .ok n =>
      match words.get? 1 with
      | none => .error .indexError
      | some w1 =>
        match parseFloat w1 with
        | none => .error (.valueError w1)
        | some x =>
          match words.get? 2 with
          | none => .error .indexError
          | some w2 =>
            match parseFloat w2 with
            | none => .error (.valueError w2)
            | some y =>
              match words.get? 3 with
              | none => .error .indexError
              | some w3 =>
                match parseFloat w3 with
                | none => .error (.valueError w3)
                | some z => .ok (n, qmul x ang, qmul y ang, qmul z ang)

/-- One atom line: split on whitespace and process the tokens. -/
def loadAtomLine (ang : ℚ) (line : String) : Except PyErr (Int × ℚ × ℚ × ℚ) :=
  loadWords ang (pySplit line)

/-- The per-atom loop of the reader: read and process one line per atom.
An error carries the state of the line source at the moment it is raised,
as the mutated source object the caller still holds. -/
def loadAtoms (ang : ℚ) :
    Nat → LineIterator → Except (PyErr × LineIterator) (List (Int × ℚ × ℚ × ℚ) × LineIterator)
  | 0, lit => .ok ([], lit)
  | k + 1, lit =>
    match lit.next with
    | none => .error (.stopIteration, lit)
    | some (line, lit1) =>
      match loadAtomLine ang line with
      | .error e => .error (e, lit1)
      | .ok a =>
        match loadAtoms ang k lit1 with
        | .error e => .error e
        | .ok (as, lit2) => .ok (a :: as, lit2)

/-- The single-frame reader load_one: parse the count line, read and strip
the title line, check the count is a legal array dimension, then run the
per-atom loop and assemble the record.  The length-unit constant, external
to the source file, is passed explicitly. -/
def load_one (ang : ℚ) (lit : LineIterator) :
    Except (PyErr × LineIterator) (XYZFrame × LineIterator) :=
  match lit.next with
  | none => .error (.stopIteration, lit)
  | some (l0, lit1) =>
    match parseInt l0 with
    | none => .error (.valueError l0, lit1)
    | some size =>
      match lit1.next with
      | none => .error (.stopIteration, lit1)
      | some (l1, lit2) =>
        if size < 0 then
          .error (.valueError "negative dimensions are not allowed", lit2)
        else
          match loadAtoms ang size.toNat lit2 with
          | .error e => .error e
          | .ok (atoms, lit3) =>
            .ok (⟨pyStrip l1, atoms.map (fun a => a.1), atoms.map (fun a => a.2)⟩, lit3)

/-- The iteration of the multi-frame reader with an explicit bound on the
number of frames; the bound one more than the count of remaining lines
always suffices, as each successful frame consumes at least two lines.
The result is the sequence of records produced before termination,
together with the terminal error when termination was not the exhaustion
signal caught at a frame boundary attempt. -/
def loadManyAux (ang : ℚ) :
    Nat → LineIterator → List XYZFrame × Option (PyErr × LineIterator)
  | 0, _ => ([], none)
  | fuel + 1, lit =>
    match load_one ang lit with
    | .error (.stopIteration, _) => ([], none)
    | .error e => ([], some e)
    | .ok (f, lit1) =>
      (f :: (loadManyAux ang fuel lit1).1, (loadManyAux ang fuel lit1).2)

/-- The multi-frame reader load_many: repeatedly invoke the single-frame
reader, catching the exhaustion signal as normal termination. -/
def load_many (ang : ℚ) (lit : LineIterator) :
    List XYZFrame × Option (PyErr × LineIterator) :=
  loadManyAux ang (lit.lines.length + 1) lit

/-! ## The single-frame writer -/

/-- One formatted atom line: the symbol left-justified to a minimum width
of two, then the three coordinates divided by the length-unit constant,
each right-justified in a 15-character fixed-point field with ten
fractional digits, the four fields separated by single spaces. -/
def mkAtomLine (ang : ℚ) (s : String) (c : ℚ × ℚ × ℚ) : String :=
  String.mk (padRightSpaces 2 s.data ++ ' ' ::
    (fmtField15 (qdiv c.1 ang) ++ ' ' ::
      (fmtField15 (qdiv c.2.1 ang) ++ ' ' :: fmtField15 (qdiv c.2.2 ang))))

/-- The per-atom loop of the writer: look up each symbol, then fetch and
convert the coordinate row.  The result is the lines written before any
failure, together with the error if the loop stopped early: a missing
table entry is a key error and a missing coordinate row an index error, in
evaluation order. -/
def dumpAtoms (ang : ℚ) :
    List Int → List (ℚ × ℚ × ℚ) → List String × Option PyErr
  | [], _ => ([], none)
  | n :: ns, cs =>
    match num2sym n with
    | none => ([], some (.keyError (toString n)))
    | some s =>
      match cs with
      | [] => ([], some .indexError)
      | c :: cs2 =>
        (mkAtomLine ang s c :: (dumpAtoms ang ns cs2).1, (dumpAtoms ang ns cs2).2)

/-- The single-frame writer dump_one: print the atom count, then the title
with the default placeholder substituted for an empty one, then one line
per atom.  The sink is modelled as the list of lines printed, in order;
the result also reports the error at which the writer stopped, if any. -/
def dump_one (ang : ℚ) (d : XYZFrame) : List String × Option PyErr :=
  (natRepr d.natom :: (if d.title = "" then "Created with IOData" else d.title) ::
    (dumpAtoms ang d.atnums d.atcoords).1, (dumpAtoms ang d.atnums d.atcoords).2)

/-! ## Digit-string lemmas -/

theorem digitChar_spec {d : Nat} (h : d < 10) :
    (digitChar d).isDigit = true ∧ pyWS (digitChar d) = false ∧
      digitChar d ≠ '-' ∧ digitChar d ≠ '+' ∧ digitChar d ≠ '.' := by
  interval_cases d <;> exact ⟨by decide, by decide, by decide, by decide, by decide⟩

theorem digitVal_digitChar {d : Nat} (h : d < 10) : digitVal (digitChar d) = d := by
  interval_cases d <;> decide

theorem natDigitsAux_bridge :
    ∀ (n fuel : Nat) (acc : List Char), n < fuel →
      natDigitsAux fuel n acc = natDigits n ++ acc := by
  intro n
  induction n using Nat.strong_induction_on with
  | _ n ih =>
    intro fuel acc hf
    cases fuel with
    | zero => omega
    | succ f =>
      by_cases h10 : n < 10
      · simp [natDigitsAux, h10, natDigits]
      · have hd : n / 10 < n := Nat.div_lt_self (by omega) (by omega)
        rw [natDigitsAux, if_neg h10, ih (n / 10) hd f _ (by omega)]
        have hrhs : natDigits n = natDigits (n / 10) ++ [digitChar (n % 10)] := by
          show natDigitsAux (n + 1) n [] = _
          rw [natDigitsAux, if_neg h10, ih (n / 10) hd n _ (by omega)]
        rw [hrhs, List.append_assoc]
        rfl

theorem natDigits_def (n : Nat) :
    natDigits n =
      if n < 10 then [digitChar n]
      else natDigits (n / 10) ++ [digitChar (n % 10)] := by
  by_cases h10 : n < 10
  · simp [natDigits, natDigitsAux, h10]
  · rw [if_neg h10]
    show natDigitsAux (n + 1) n [] = _
    rw [natDigitsAux, if_neg h10]
    exact natDigitsAux_bridge (n / 10) n [digitChar (n % 10)]
      (Nat.div_lt_self (by omega) (by omega))

theorem natDigits_ne_nil (n : Nat) : natDigits n ≠ [] := by
  rw [natDigits_def]; split <;> simp

theorem natDigits_chars (n : Nat) :
    ∀ c ∈ natDigits n, c.isDigit = true ∧ pyWS c = false ∧
      c ≠ '-' ∧ c ≠ '+' ∧ c ≠ '.' := by
  induction n using Nat.strong_induction_on with
  | _ n ih =>
    rw [natDigits_def]
    split
    · next h =>
      intro c hc
      simp only [List.mem_singleton] at hc
      exact hc ▸ digitChar_spec h
    · next h =>
      intro c hc
      rcases List.mem_append.mp hc with h1 | h2
      · exact ih (n / 10) (Nat.div_lt_self (by omega) (by omega)) c h1
      · simp only [List.mem_singleton] at h2
        exact h2 ▸ digitChar_spec (Nat.mod_lt _ (by omega))

theorem digitsToNat_from (l : List Char) (a : Nat) :
    l.foldl (fun x c => x * 10 + digitVal c) a = a * 10 ^ l.length + digitsToNat l := by
  induction l generalizing a with
  | nil => simp [digitsToNat]
  | cons c cs ih =>
    simp only [List.foldl_cons, digitsToNat, List.length_cons]
    rw [ih, ih (0 * 10 + digitVal c)]
    ring

theorem digitsToNat_cons (c : Char) (cs : List Char) :
    digitsToNat (c :: cs) = digitVal c * 10 ^ cs.length + digitsToNat cs := by
  have := digitsToNat_from cs (digitVal c)
  simp only [digitsToNat, List.foldl_cons] at *
  simpa using this

theorem digitsToNat_append (a b : List Char) :
    digitsToNat (a ++ b) = digitsToNat a * 10 ^ b.length + digitsToNat b := by
  have := digitsToNat_from b (digitsToNat a)
  simp only [digitsToNat, List.foldl_append] at *
  exact this

theorem digitsToNat_natDigits (n : Nat) : digitsToNat (natDigits n) = n := by
  induction n using Nat.strong_induction_on with
  | _ n ih =>
    rw [natDigits_def]
    split
    · next h =>
      rw [digitsToNat_cons]
      simp [digitsToNat, digitVal_digitChar h]
    · next h =>
      rw [digitsToNat_append, ih (n / 10) (Nat.div_lt_self (by omega) (by omega))]
      rw [digitsToNat_cons]
      have h10 : n % 10 < 10 := Nat.mod_lt _ (by omega)
      simp [digitsToNat, digitVal_digitChar h10]
      omega

theorem natDigits_len_le {n k : Nat} (h : n < 10 ^ k) (hk : 1 ≤ k) :
    (natDigits n).length ≤ k := by
  induction n using Nat.strong_induction_on generalizing k with
  | _ n ih =>
    rw [natDigits_def]
    split
    · next => simpa using hk
    · next hn =>
      have hk2 : 2 ≤ k := by
        by_contra hcon
        have : k = 1 := by omega
        subst this
        simp at h
        omega
      have hdiv : n / 10 < 10 ^ (k - 1) := by
        rw [Nat.div_lt_iff_lt_mul (by omega)]
        calc n < 10 ^ k := h
        _ = 10 ^ (k - 1) * 10 := by
            rw [← pow_succ]
            congr 1
            omega
      have := ih (n / 10) (Nat.div_lt_self (by omega) (by omega)) hdiv (by omega)
      simp only [List.length_append, List.length_cons, List.length_nil]
      omega

theorem digitsToNat_padZeros (k : Nat) (l : List Char) :
    digitsToNat (padZeros k l) = digitsToNat l := by
  unfold padZeros
  generalize k - l.length = m
  induction m with
  | zero => simp
  | succ m ih =>
    rw [List.replicate_succ, List.cons_append, digitsToNat_cons, ih]
    simp [digitVal]

theorem padZeros_length {k : Nat} {l : List Char} (h : l.length ≤ k) :
    (padZeros k l).length = k := by
  simp [padZeros]
  omega

theorem padZeros_mem {k : Nat} {l : List Char} {c : Char} (h : c ∈ padZeros k l) :
    c = '0' ∨ c ∈ l := by
  rcases List.mem_append.mp h with h1 | h2
  · exact Or.inl (List.eq_of_mem_replicate h1)
  · exact Or.inr h2

/-! ## The integer-level rational operations agree with the field -/

theorem qmul_eq_mul (a b : ℚ) : qmul a b = a * b := by
  rw [qmul, Rat.divInt_eq_div]
  push_cast
  rw [← div_mul_div_comm, Rat.num_div_den, Rat.num_div_den]

theorem qdiv_eq_div (a b : ℚ) : qdiv a b = a / b := by
  by_cases hb : b = 0
  · subst hb
    simp [qdiv]
  · have hbn : (b.num : ℚ) ≠ 0 := by
      exact_mod_cast Rat.num_ne_zero.mpr hb
    have had : ((a.den : ℚ)) ≠ 0 := by
      exact_mod_cast a.den_nz
    have hbd : ((b.den : ℚ)) ≠ 0 := by
      exact_mod_cast b.den_nz
    rw [qdiv, Rat.divInt_eq_div]
    push_cast
    rw [div_eq_div_iff (mul_ne_zero had hbn) hb]
    have ha2 : (a.num : ℚ) = a * a.den := (div_eq_iff had).mp (Rat.num_div_den a)
    have hb2 : (b.num : ℚ) = b * b.den := (div_eq_iff hbd).mp (Rat.num_div_den b)
    rw [ha2, hb2]
    ring

/-! ## Strip and split lemmas -/

theorem dropWhile_of_all_false {p : Char → Bool} {l : List Char}
    (h : ∀ c ∈ l, p c = false) : l.dropWhile p = l := by
  cases l with
  | nil => rfl
  | cons c cs =>
    rw [List.dropWhile_cons]
    simp [h c (List.mem_cons_self c cs)]

theorem stripChars_eq_self {l : List Char} (h : ∀ c ∈ l, pyWS c = false) :
    stripChars l = l := by
  unfold stripChars
  rw [dropWhile_of_all_false h, dropWhile_of_all_false, List.reverse_reverse]
  intro c hc
  exact h c (List.mem_reverse.mp hc)

theorem wsplitAux_nonws (t : List Char) (h : ∀ c ∈ t, pyWS c = false) :
    ∀ s cur, wsplitAux (t ++ s) cur = wsplitAux s (t.reverse ++ cur) := by
  induction t with
  | nil => intro s cur; simp
  | cons c cs ih =>
    intro s cur
    rw [List.cons_append, wsplitAux]
    simp only [h c (List.mem_cons_self c cs), Bool.false_eq_true, if_false]
    rw [ih (fun d hd => h d (List.mem_cons_of_mem c hd)) s (c :: cur)]
    simp

theorem wsplitAux_ws_nil {c : Char} (hc : pyWS c = true) (s : List Char) :
    wsplitAux (c :: s) [] = wsplitAux s [] := by
  rw [wsplitAux]
  simp [hc]

theorem wsplitAux_ws_cons {c : Char} (hc : pyWS c = true) (s cur : List Char)
    (h2 : cur ≠ []) : wsplitAux (c :: s) cur = cur.reverse :: wsplitAux s [] := by
  rw [wsplitAux]
  simp [hc, List.isEmpty_iff, h2]

theorem wsplitAux_spaces (m : Nat) (s : List Char) :
    wsplitAux (List.replicate m ' ' ++ s) [] = wsplitAux s [] := by
  induction m with
  | zero => simp
  | succ m ih =>
    rw [List.replicate_succ, List.cons_append, wsplitAux_ws_nil (by decide), ih]

theorem wsplitAux_spaces_cons (m : Nat) (s cur : List Char) (h2 : cur ≠ []) :
    wsplitAux (List.replicate m ' ' ++ ' ' :: s) cur = cur.reverse :: wsplitAux s [] := by
  cases m with
  | zero => simpa using wsplitAux_ws_cons (by decide) s cur h2
  | succ m =>
    rw [List.replicate_succ, List.cons_append, wsplitAux_ws_cons (by decide) _ cur h2]
    rw [wsplitAux_spaces m (' ' :: s), wsplitAux_ws_nil (by decide)]

/-! ## Character facts about the fixed-point text -/

theorem fixedBody_chars (a b : Nat) :
    ∀ c ∈ natDigits a ++ '.' :: padZeros 10 (natDigits b), pyWS c = false := by
  intro c hc
  rcases List.mem_append.mp hc with h1 | h2
  · exact (natDigits_chars a c h1).2.1
  · rcases List.mem_cons.mp h2 with h3 | h4
    · subst h3; decide
    · rcases padZeros_mem h4 with h5 | h6
      · subst h5; decide
      · exact (natDigits_chars b c h6).2.1

theorem fmtFixedCore_chars (q : ℚ) : ∀ c ∈ fmtFixedCore q, pyWS c = false := by
  unfold fmtFixedCore
  intro c hc
  split at hc
  · rcases List.mem_cons.mp hc with h1 | h2
    · subst h1; decide
    · exact fixedBody_chars _ _ c h2
  · exact fixedBody_chars _ _ c hc

theorem fmtFixedCore_ne_nil (q : ℚ) : fmtFixedCore q ≠ [] := by
  unfold fmtFixedCore
  split
  · simp
  · simp [natDigits_ne_nil]

/-! ## Splitting a formatted atom line into its tokens -/

theorem wsplitAux_field_sep (x : ℚ) (s : List Char) :
    wsplitAux (fmtField15 x ++ ' ' :: s) [] = fmtFixedCore x :: wsplitAux s [] := by
  unfold fmtField15 padLeftSpaces
  rw [List.append_assoc, wsplitAux_spaces]
  rw [wsplitAux_nonws (fmtFixedCore x) (fmtFixedCore_chars x) (' ' :: s) []]
  rw [wsplitAux_ws_cons (by decide) s _ (by simp [fmtFixedCore_ne_nil x])]
  simp

theorem wsplitAux_field_last (x : ℚ) :
    wsplitAux (fmtField15 x) [] = [fmtFixedCore x] := by
  unfold fmtField15 padLeftSpaces
  rw [wsplitAux_spaces]
  have h := wsplitAux_nonws (fmtFixedCore x) (fmtFixedCore_chars x) [] []
  simp only [List.append_nil] at h
  rw [h, wsplitAux]
  simp [fmtFixedCore_ne_nil x]

theorem pySplit_mkAtomLine (ang : ℚ) (s : String) (c : ℚ × ℚ × ℚ)
    (hne : s.data ≠ []) (hws : ∀ ch ∈ s.data, pyWS ch = false) :
    pySplit (mkAtomLine ang s c) =
      [s, String.mk (fmtFixedCore (qdiv c.1 ang)), String.mk (fmtFixedCore (qdiv c.2.1 ang)),
        String.mk (fmtFixedCore (qdiv c.2.2 ang))] := by
  obtain ⟨sd⟩ := s
  unfold pySplit mkAtomLine padRightSpaces
  simp only [String.data] at *
  rw [List.append_assoc, wsplitAux_nonws sd hws]
  rw [List.append_nil, wsplitAux_spaces_cons _ _ _ (by simpa using hne)]
  rw [wsplitAux_field_sep, wsplitAux_field_sep, wsplitAux_field_last]
  simp

/-! ## Parsing formatted text recovers the value -/

theorem takeWhile_all_append {p : Char → Bool} (t : List Char)
    (ht : ∀ c ∈ t, p c = true) (c : Char) (hc : p c = false) (s : List Char) :
    (t ++ c :: s).takeWhile p = t ∧ (t ++ c :: s).dropWhile p = c :: s := by
  induction t with
  | nil => simp [List.takeWhile_cons, List.dropWhile_cons, hc]
  | cons d ds ih =>
    have hd := ht d (List.mem_cons_self d ds)
    have ih2 := ih (fun e he => ht e (List.mem_cons_of_mem d he))
    simp [List.takeWhile_cons, List.dropWhile_cons, hd, ih2.1, ih2.2]

theorem parseUFloat_digits (a b : Nat) (hb : b < 10 ^ 10) :
    parseUFloat (natDigits a ++ '.' :: padZeros 10 (natDigits b)) =
      some ((a : ℚ) + (b : ℚ) / 10 ^ 10) := by
  have hta : ∀ c ∈ natDigits a, Char.isDigit c = true :=
    fun c hc => (natDigits_chars a c hc).1
  have h := takeWhile_all_append (natDigits a) hta '.' (by decide)
    (padZeros 10 (natDigits b))
  have hall : (padZeros 10 (natDigits b)).all Char.isDigit = true := by
    rw [List.all_eq_true]
    intro c hc
    rcases padZeros_mem hc with h1 | h2
    · subst h1; decide
    · exact (natDigits_chars b c h2).1
  have hlen : (padZeros 10 (natDigits b)).length = 10 :=
    padZeros_length (natDigits_len_le hb (by norm_num))
  have hmk : mkRat ((a : Int) * 10000000000 + (b : Int)) 10000000000 =
      (a : ℚ) + (b : ℚ) / 10 ^ 10 := by
    have hpow : ((10 : ℚ) ^ 10) = 10000000000 := by norm_num
    rw [Rat.mkRat_eq_div]
    push_cast
    rw [← hpow, add_div]
    congr 1
    exact mul_div_cancel_right₀ _ (by positivity)
  simp only [parseUFloat, h.1, h.2]
  simp [natDigits_ne_nil, hall, hlen, digitsToNat_natDigits, digitsToNat_padZeros, hmk]

theorem parseFloatChars_no_sign (c : Char) (r : List Char)
    (hws : ∀ ch ∈ c :: r, pyWS ch = false) (hc1 : c ≠ '-') (hc2 : c ≠ '+') :
    parseFloatChars (c :: r) = parseUFloat (c :: r) := by
  have hstrip : stripChars (c :: r) = c :: r := stripChars_eq_self hws
  simp only [parseFloatChars, hstrip]
  rw [if_neg hc1, if_neg hc2]

theorem parseFloatChars_minus (r : List Char) (hws : ∀ ch ∈ r, pyWS ch = false) :
    parseFloatChars ('-' :: r) = (parseUFloat r).map (fun q => -q) := by
  have hstrip : stripChars ('-' :: r) = '-' :: r := by
    apply stripChars_eq_self
    intro ch hch
    rcases List.mem_cons.mp hch with h1 | h2
    · subst h1; decide
    · exact hws ch h2
  simp only [parseFloatChars, hstrip]
  simp

theorem parseFloatChars_pos_body (a b : Nat) (hb : b < 10 ^ 10) :
    parseFloatChars (natDigits a ++ '.' :: padZeros 10 (natDigits b)) =
      some ((a : ℚ) + (b : ℚ) / 10 ^ 10) := by
  obtain ⟨c, r, hnd⟩ : ∃ c r, natDigits a = c :: r := by
    cases h : natDigits a with
    | nil => exact absurd h (natDigits_ne_nil a)
    | cons c r => exact ⟨c, r, rfl⟩
  have hc := natDigits_chars a c (by rw [hnd]; exact List.mem_cons_self c r)
  rw [hnd, List.cons_append]
  rw [parseFloatChars_no_sign c _ ?hws hc.2.2.1 hc.2.2.2.1]
  case hws =>
    rw [← List.cons_append, ← hnd]
    exact fixedBody_chars a b
  rw [← List.cons_append, ← hnd]
  exact parseUFloat_digits a b hb

theorem parseFloatChars_neg_body (a b : Nat) (hb : b < 10 ^ 10) :
    parseFloatChars ('-' :: (natDigits a ++ '.' :: padZeros 10 (natDigits b))) =
      some (-((a : ℚ) + (b : ℚ) / 10 ^ 10)) := by
  rw [parseFloatChars_minus _ (fixedBody_chars a b), parseUFloat_digits a b hb]
  rfl

theorem parseFloatChars_fmtFixedCore (q : ℚ) :
    parseFloatChars (fmtFixedCore q) = some (fixedRound10 q) := by
  have hm : fixedScaled q % 10 ^ 10 < 10 ^ 10 := Nat.mod_lt _ (by norm_num)
  have hval : ((fixedScaled q / 10 ^ 10 : Nat) : ℚ) +
      ((fixedScaled q % 10 ^ 10 : Nat) : ℚ) / 10 ^ 10 =
      (fixedScaled q : ℚ) / 10 ^ 10 := by
    field_simp
    exact_mod_cast (by omega :
      (fixedScaled q / 10 ^ 10) * 10 ^ 10 + fixedScaled q % 10 ^ 10 = fixedScaled q)
  by_cases hq : q < 0
  · simp only [fmtFixedCore, if_pos hq]
    rw [parseFloatChars_neg_body _ _ hm, hval]
    simp only [fixedRound10, if_pos hq]
    congr 1
    ring
  · simp only [fmtFixedCore, if_neg hq]
    rw [parseFloatChars_pos_body _ _ hm, hval]
    simp only [fixedRound10, if_neg hq]
    congr 1
    ring

theorem parseIntChars_no_sign (c : Char) (r : List Char)
    (hws : ∀ ch ∈ c :: r, pyWS ch = false) (hc1 : c ≠ '-') (hc2 : c ≠ '+') :
    parseIntChars (c :: r) = (parseNatChars (c :: r)).map (fun n => (n : Int)) := by
  have hstrip : stripChars (c :: r) = c :: r := stripChars_eq_self hws
  simp only [parseIntChars, hstrip]
  rw [if_neg hc1, if_neg hc2]

theorem parseInt_natRepr (n : Nat) : parseInt (natRepr n) = some (n : Int) := by
  show parseIntChars (natDigits n) = some (n : Int)
  obtain ⟨c, r, hnd⟩ : ∃ c r, natDigits n = c :: r := by
    cases h : natDigits n with
    | nil => exact absurd h (natDigits_ne_nil n)
    | cons c r => exact ⟨c, r, rfl⟩
  have hc := natDigits_chars n c (by rw [hnd]; exact List.mem_cons_self c r)
  rw [hnd]
  rw [parseIntChars_no_sign c r ?hws hc.2.2.1 hc.2.2.2.1]
  case hws =>
    rw [← hnd]
    exact fun ch hch => (natDigits_chars n ch hch).2.1
  have hpn : parseNatChars (c :: r) = some (digitsToNat (c :: r)) := by
    unfold parseNatChars
    rw [if_pos]
    refine ⟨List.cons_ne_nil c r, ?_⟩
    rw [List.all_eq_true]
    intro x hx
    exact (natDigits_chars n x (hnd ▸ hx)).1
  rw [hpn, ← hnd, digitsToNat_natDigits]
  rfl

/-! ## Element-table facts -/

theorem elementTable_sound :
    ∀ p ∈ elementTable, sym2num (pyTitle p.1) = some p.2 ∧ p.1.data ≠ [] ∧
      ∀ c ∈ p.1.data, pyWS c = false := by
  decide

theorem num2sym_sound {n : Int} {s : String} (h : num2sym n = some s) :
    sym2num (pyTitle s) = some n ∧ s.data ≠ [] ∧ ∀ c ∈ s.data, pyWS c = false := by
  unfold num2sym at h
  obtain ⟨p, hp, hps⟩ : ∃ p, elementTable.find? (fun p => p.2 == n) = some p ∧ p.1 = s := by
    cases hf : elementTable.find? (fun p => p.2 == n) with
    | none => rw [hf] at h; simp at h
    | some p => rw [hf] at h; simp at h; exact ⟨p, rfl, h⟩
  have hmem : p ∈ elementTable := List.mem_of_find?_eq_some hp
  have hval : p.2 = n := by
    have := List.find?_some hp
    simpa using this
  have := elementTable_sound p hmem
  rw [hps, hval] at this
  exact this

/-! ## Loading one dumped atom line -/

theorem loadAtomLine_mkAtomLine (ang : ℚ) (s : String) (n : Int) (c : ℚ × ℚ × ℚ)
    (hsym : sym2num (pyTitle s) = some n) (hne : s.data ≠ [])
    (hws : ∀ ch ∈ s.data, pyWS ch = false) :
    loadAtomLine ang (mkAtomLine ang s c) =
      .ok (n, qmul (fixedRound10 (qdiv c.1 ang)) ang, qmul (fixedRound10 (qdiv c.2.1 ang)) ang,
        qmul (fixedRound10 (qdiv c.2.2 ang)) ang) := by
  unfold loadAtomLine
  rw [pySplit_mkAtomLine ang s c hne hws]
  unfold loadWords resolveElement
  have hparse : ∀ q : ℚ, parseFloat (String.mk (fmtFixedCore q)) = some (fixedRound10 q) :=
    fun q => parseFloatChars_fmtFixedCore q
  simp only [List.get?, hsym, hparse]

/-! ## Behaviour of the per-atom loop -/

theorem next_some {lit : LineIterator} {l : String} {lit1 : LineIterator}
    (h : lit.next = some (l, lit1)) :
    lit.lines = l :: lit1.lines ∧ lit1.lineno = lit.lineno + 1 := by
  obtain ⟨ls, n⟩ := lit
  cases ls with
  | nil => simp [LineIterator.next] at h
  | cons a as =>
    simp only [LineIterator.next, Option.some.injEq, Prod.mk.injEq] at h
    obtain ⟨h1, h2⟩ := h
    subst h1
    rw [← h2]
    exact ⟨rfl, rfl⟩

theorem loadAtoms_consumed {ang : ℚ} :
    ∀ {k : Nat} {lit : LineIterator} {as : List (Int × ℚ × ℚ × ℚ)} {lit2 : LineIterator},
      loadAtoms ang k lit = .ok (as, lit2) →
      as.length = k ∧ lit2.lines = lit.lines.drop k ∧ lit2.lineno = lit.lineno + k := by
  intro k
  induction k with
  | zero =>
    intro lit as lit2 h
    simp only [loadAtoms, Except.ok.injEq, Prod.mk.injEq] at h
    obtain ⟨h1, h2⟩ := h
    subst h1; subst h2
    simp
  | succ k ih =>
    intro lit as lit2 h
    cases hlit : lit.next with
    | none => simp [loadAtoms, hlit] at h
    | some p =>
      obtain ⟨line, lit1⟩ := p
      simp only [loadAtoms, hlit] at h
      cases hal : loadAtomLine ang line with
      | error e => simp [hal] at h
      | ok a =>
        simp only [hal] at h
        cases hrec : loadAtoms ang k lit1 with
        | error e => simp [hrec] at h
        | ok q =>
          obtain ⟨as1, lit3⟩ := q
          simp only [hrec, Except.ok.injEq, Prod.mk.injEq] at h
          obtain ⟨h1, h2⟩ := h
          subst h1; subst h2
          obtain ⟨hl1, hl2⟩ := next_some hlit
          obtain ⟨g1, g2, g3⟩ := ih hrec
          refine ⟨by simp [g1], ?_, by omega⟩
          rw [g2, hl1]
          simp

theorem loadAtoms_extend {ang : ℚ} :
    ∀ {k : Nat} {ls : List String} {n : Nat} {as : List (Int × ℚ × ℚ × ℚ)}
      {ls2 : List String} {n2 : Nat},
      loadAtoms ang k ⟨ls, n⟩ = .ok (as, ⟨ls2, n2⟩) →
      ∀ (R : List String) (m : Nat),
        loadAtoms ang k ⟨ls ++ R, m⟩ = .ok (as, ⟨ls2 ++ R, m + k⟩) := by
  intro k
  induction k with
  | zero =>
    intro ls n as ls2 n2 h R m
    simp only [loadAtoms, Except.ok.injEq, Prod.mk.injEq, LineIterator.mk.injEq] at h
    obtain ⟨h1, h2, h3⟩ := h
    subst h1; subst h2
    simp [loadAtoms]
  | succ k ih =>
    intro ls n as ls2 n2 h R m
    cases ls with
    | nil => simp [loadAtoms, LineIterator.next] at h
    | cons l rest =>
      simp only [loadAtoms, LineIterator.next] at h
      cases hal : loadAtomLine ang l with
      | error e => simp [hal] at h
      | ok a =>
        simp only [hal] at h
        cases hrec : loadAtoms ang k ⟨rest, n + 1⟩ with
        | error e => simp [hrec] at h
        | ok q =>
          obtain ⟨as1, lit3⟩ := q
          obtain ⟨ls3, n3⟩ := lit3
          simp only [hrec, Except.ok.injEq, Prod.mk.injEq, LineIterator.mk.injEq] at h
          obtain ⟨h1, h2, h3⟩ := h
          subst h1; subst h2
          simp only [List.cons_append, loadAtoms, LineIterator.next, hal]
          rw [ih hrec R (m + 1)]
          have : m + 1 + k = m + (k + 1) := by omega
          rw [this]

/-- Loading back the lines written by the per-atom loop of the writer
recovers the atomic numbers exactly and each coordinate up to the rounding
the ten-digit fixed-point field induces. -/
theorem dumpAtoms_ok_loadAtoms (ang : ℚ) :
    ∀ (ns : List Int) (cs : List (ℚ × ℚ × ℚ)),
      ns.length = cs.length → (∀ n ∈ ns, (num2sym n).isSome) →
      (dumpAtoms ang ns cs).2 = none ∧
      ∀ (R : List String) (m : Nat),
        loadAtoms ang ns.length ⟨(dumpAtoms ang ns cs).1 ++ R, m⟩ =
          .ok (List.zipWith (fun n c => (n, fixedRound10 (c.1 / ang) * ang,
            fixedRound10 (c.2.1 / ang) * ang, fixedRound10 (c.2.2 / ang) * ang)) ns cs,
            ⟨R, m + ns.length⟩) := by
  intro ns
  induction ns with
  | nil =>
    intro cs hlen htab
    exact ⟨rfl, fun R m => by simp [dumpAtoms, loadAtoms]⟩
  | cons n ns ih =>
    intro cs hlen htab
    cases cs with
    | nil => simp at hlen
    | cons c cs2 =>
      have hsome := htab n (List.mem_cons_self n ns)
      obtain ⟨s, hs⟩ := Option.isSome_iff_exists.mp hsome
      have hfacts := num2sym_sound hs
      have ihres := ih cs2 (by simpa using hlen)
        (fun x hx => htab x (List.mem_cons_of_mem n hx))
      simp only [dumpAtoms, hs]
      refine ⟨ihres.1, ?_⟩
      intro R m
      simp only [List.length_cons, List.cons_append, loadAtoms, LineIterator.next,
        loadAtomLine_mkAtomLine ang s n c hfacts.1 hfacts.2.1 hfacts.2.2,
        ihres.2 R (m + 1), List.zipWith_cons_cons, qmul_eq_mul, qdiv_eq_div]
      have : m + 1 + ns.length = m + (ns.length + 1) := by omega
      rw [this]

/-! ## Behaviour of the single-frame reader -/

theorem load_one_unfold_ok (ang : ℚ) (l0 l1 : String) (rest : List String) (k : Nat)
    (N : Nat) (hparse : parseInt l0 = some (N : Int))
    {atoms : List (Int × ℚ × ℚ × ℚ)} {lit3 : LineIterator}
    (hatoms : loadAtoms ang N ⟨rest, k + 2⟩ = .ok (atoms, lit3)) :
    load_one ang ⟨l0 :: l1 :: rest, k⟩ =
      .ok (⟨pyStrip l1, atoms.map (fun a => a.1), atoms.map (fun a => a.2)⟩, lit3) := by
  have ht : ((N : Int)).toNat = N := by omega
  simp only [load_one, LineIterator.next, hparse]
  rw [if_neg (by omega : ¬ (N : Int) < 0)]
  rw [ht, hatoms]

theorem load_one_consumed {ang : ℚ} {lit : LineIterator} {f : XYZFrame}
    {lit2 : LineIterator} (h : load_one ang lit = .ok (f, lit2)) :
    lit2.lines = lit.lines.drop (f.natom + 2) ∧ lit2.lineno = lit.lineno + (f.natom + 2) := by
  cases hn0 : lit.next with
  | none => simp [load_one, hn0] at h
  | some p0 =>
    obtain ⟨l0, lit1⟩ := p0
    simp only [load_one, hn0] at h
    cases hp : parseInt l0 with
    | none => simp [hp] at h
    | some N =>
      simp only [hp] at h
      cases hn1 : lit1.next with
      | none => simp [hn1] at h
      | some p1 =>
        obtain ⟨l1, litx⟩ := p1
        simp only [hn1] at h
        by_cases hneg : N < 0
        · rw [if_pos hneg] at h; simp at h
        · rw [if_neg hneg] at h
          cases hla : loadAtoms ang N.toNat litx with
          | error e => simp [hla] at h
          | ok q =>
            obtain ⟨atoms, lit3⟩ := q
            simp only [hla, Except.ok.injEq, Prod.mk.injEq] at h
            obtain ⟨hf, hl⟩ := h
            subst hf; subst hl
            obtain ⟨g1, g2, g3⟩ := loadAtoms_consumed hla
            obtain ⟨a1, a2⟩ := next_some hn0
            obtain ⟨b1, b2⟩ := next_some hn1
            have hnat : (XYZFrame.mk (pyStrip l1) (atoms.map (fun a => a.1))
                (atoms.map (fun a => a.2))).natom = N.toNat := by
              simp [XYZFrame.natom, g1]
            rw [hnat]
            constructor
            · rw [g2, a1, b1]
              simp [List.drop_succ_cons]
            · omega

theorem load_one_extend (ang : ℚ) {L : List String} {n : Nat} {f : XYZFrame}
    {ls2 : List String} {n2 : Nat}
    (h : load_one ang ⟨L, n⟩ = .ok (f, ⟨ls2, n2⟩)) (R : List String) (m : Nat) :
    load_one ang ⟨L ++ R, m⟩ = .ok (f, ⟨ls2 ++ R, m + (f.natom + 2)⟩) := by
  cases L with
  | nil => simp [load_one, LineIterator.next] at h
  | cons l0 L1 =>
    simp only [load_one, LineIterator.next] at h
    cases hp : parseInt l0 with
    | none => simp [hp] at h
    | some N =>
      simp only [hp] at h
      cases L1 with
      | nil => simp [LineIterator.next] at h
      | cons l1 rest =>
        simp only [LineIterator.next] at h
        by_cases hneg : N < 0
        · rw [if_pos hneg] at h; simp at h
        · rw [if_neg hneg] at h
          cases hla : loadAtoms ang N.toNat ⟨rest, n + 2⟩ with
          | error e => simp [hla] at h
          | ok q =>
            obtain ⟨atoms, lit3⟩ := q
            obtain ⟨ls3, n3⟩ := lit3
            simp only [hla, Except.ok.injEq, Prod.mk.injEq, LineIterator.mk.injEq] at h
            obtain ⟨hf, hls, hn⟩ := h
            subst hls
            have hlen : atoms.length = N.toNat := (loadAtoms_consumed hla).1
            simp only [List.cons_append, load_one, LineIterator.next, hp]
            rw [if_neg hneg]
            have hExt := loadAtoms_extend hla R (m + 2)
            simp only [hExt]
            have hnat : f.natom = N.toNat := by
              rw [← hf]
              simp [XYZFrame.natom, hlen]
            rw [hf]
            have harith : m + 2 + N.toNat = m + (f.natom + 2) := by omega
            rw [harith]

theorem zip_pair_map_fst {α β γ : Type} (g : α → β → γ) :
    ∀ (ns : List α) (cs : List β), ns.length = cs.length →
      (List.zipWith (fun n c => (n, g n c)) ns cs).map (fun a => a.1) = ns := by
  intro ns
  induction ns with
  | nil => intro cs _; simp
  | cons n ns ih =>
    intro cs hlen
    cases cs with
    | nil => simp at hlen
    | cons c cs2 => simp [ih cs2 (by simpa using hlen)]

theorem zip_pair_map_snd {α β γ : Type} (g : β → γ) :
    ∀ (ns : List α) (cs : List β), ns.length = cs.length →
      (List.zipWith (fun n c => (n, g c)) ns cs).map (fun a => a.2) = cs.map g := by
  intro ns
  induction ns with
  | nil =>
    intro cs hlen
    cases cs with
    | nil => simp
    | cons c cs2 => simp at hlen
  | cons n ns ih =>
    intro cs hlen
    cases cs with
    | nil => simp at hlen
    | cons c cs2 => simp [ih cs2 (by simpa using hlen)]

/-! ## Exhaustion and error propagation in the per-atom loop -/

theorem loadAtoms_exhaust (ang : ℚ) :
    ∀ (ls : List String) (k m : Nat), ls.length < k →
      (∀ l ∈ ls, ∃ a, loadAtomLine ang l = .ok a) →
      ∃ litF, loadAtoms ang k ⟨ls, m⟩ = .error (.stopIteration, litF) := by
  intro ls
  induction ls with
  | nil =>
    intro k m hk _
    cases k with
    | zero => omega
    | succ k2 => exact ⟨⟨[], m⟩, by simp [loadAtoms, LineIterator.next]⟩
  | cons l rest ih =>
    intro k m hk hok
    cases k with
    | zero => omega
    | succ k2 =>
      obtain ⟨a, ha⟩ := hok l (List.mem_cons_self l rest)
      obtain ⟨litF, hF⟩ := ih k2 (m + 1) (by simp at hk; omega)
        (fun x hx => hok x (List.mem_cons_of_mem l hx))
      exact ⟨litF, by simp [loadAtoms, LineIterator.next, ha, hF]⟩

theorem loadAtoms_err (ang : ℚ) :
    ∀ (good : List String) (bad : String) (rest2 : List String) (k m : Nat) (e : PyErr),
      good.length < k → (∀ l ∈ good, ∃ a, loadAtomLine ang l = .ok a) →
      loadAtomLine ang bad = .error e →
      loadAtoms ang k ⟨good ++ bad :: rest2, m⟩ =
        .error (e, ⟨rest2, m + good.length + 1⟩) := by
  intro good
  induction good with
  | nil =>
    intro bad rest2 k m e hk _ hbad
    cases k with
    | zero => omega
    | succ k2 => simp [loadAtoms, LineIterator.next, hbad]
  | cons g good ih =>
    intro bad rest2 k m e hk hok hbad
    cases k with
    | zero => omega
    | succ k2 =>
      obtain ⟨a, ha⟩ := hok g (List.mem_cons_self g good)
      have hrec := ih bad rest2 k2 (m + 1) e (by simp at hk; omega)
        (fun x hx => hok x (List.mem_cons_of_mem g hx)) hbad
      simp only [List.cons_append, loadAtoms, LineIterator.next, ha, hrec]
      have : m + 1 + good.length + 1 = m + (good.length + 1) + 1 := by omega
      rw [this]
      simp

theorem resolveElement_err_untagged {w0 : String} {e : PyErr}
    (h : resolveElement w0 = .error e) : e.hasPositionTag = false := by
  unfold resolveElement at h
  split at h
  · simp at h
  · split at h
    · simp at h
    · simp only [Except.error.injEq] at h
      subst h
      rfl

theorem loadWords_err_untagged {ang : ℚ} {ws : List String} {e : PyErr}
    (h : loadWords ang ws = .error e) : e.hasPositionTag = false := by
  unfold loadWords at h
  split at h
  · simp only [Except.error.injEq] at h; subst h; rfl
  · split at h
    · next e1 heq =>
      simp only [Except.error.injEq] at h
      subst h
      exact resolveElement_err_untagged heq
    · split at h
      · simp only [Except.error.injEq] at h; subst h; rfl
      · split at h
        · simp only [Except.error.injEq] at h; subst h; rfl
        · split at h
          · simp only [Except.error.injEq] at h; subst h; rfl
          · split at h
            · simp only [Except.error.injEq] at h; subst h; rfl
            · split at h
              · simp only [Except.error.injEq] at h; subst h; rfl
              · split at h
                · simp only [Except.error.injEq] at h; subst h; rfl
                · simp at h

theorem loadAtomLine_err_untagged {ang : ℚ} {line : String} {e : PyErr}
    (h : loadAtomLine ang line = .error e) : e.hasPositionTag = false :=
  loadWords_err_untagged h

/-- Closed form of the per-atom loop of the writer when every atomic
number is in the table and a coordinate row exists for every atom. -/
theorem dumpAtoms_closed (ang : ℚ) :
    ∀ (ns : List Int) (cs : List (ℚ × ℚ × ℚ)),
      ns.length = cs.length → (∀ n ∈ ns, (num2sym n).isSome) →
      dumpAtoms ang ns cs =
        (List.zipWith (fun n c => mkAtomLine ang ((num2sym n).getD "") c) ns cs, none) := by
  intro ns
  induction ns with
  | nil => intro cs _ _; simp [dumpAtoms]
  | cons n ns ih =>
    intro cs hlen htab
    cases cs with
    | nil => simp at hlen
    | cons c cs2 =>
      obtain ⟨s, hs⟩ := Option.isSome_iff_exists.mp (htab n (List.mem_cons_self n ns))
      have ihres := ih cs2 (by simpa using hlen)
        (fun x hx => htab x (List.mem_cons_of_mem n hx))
      simp [dumpAtoms, hs, ihres]

/-! ## Claim theorems -/

/-- C7: on every line source whose first line parses as the integer 0 and
which still offers a title line, load_one returns a record with empty
atomic-number and coordinate sequences, consuming exactly the count line
and the title line and no per-atom lines. -/
theorem claim_C7 (ang : ℚ) (l0 l1 : String) (rest : List String) (k : Nat)
    (h : parseInt l0 = some 0) :
    load_one ang ⟨l0 :: l1 :: rest, k⟩ = .ok (⟨pyStrip l1, [], []⟩, ⟨rest, k + 2⟩) := by
  have h0 : parseInt l0 = some ((0 : Nat) : Int) := by simpa using h
  have hatoms : loadAtoms ang 0 ⟨rest, k + 2⟩ = .ok ([], ⟨rest, k + 2⟩) := by
    simp [loadAtoms]
  have hrun := load_one_unfold_ok ang l0 l1 rest k 0 h0 hatoms
  simpa using hrun

/-- Witness for C7 at a concrete input. -/
theorem claim_C7_witness :
    load_one 1 ⟨[" 0 ", " empty frame ", "leftover"], 5⟩ =
      .ok (⟨"empty frame", [], []⟩, ⟨["leftover"], 7⟩) := by
  rw [claim_C7 1 " 0 " " empty frame " ["leftover"] 5 (by decide)]
  decide

/-- C10: whenever load_one succeeds it has consumed exactly the atom count
plus two lines, leaving the source positioned at the next frame boundary
with its line counter advanced by the same amount. -/
theorem claim_C10 (ang : ℚ) (lit : LineIterator) (f : XYZFrame) (lit2 : LineIterator)
    (h : load_one ang lit = .ok (f, lit2)) :
    lit2.lines = lit.lines.drop (f.natom + 2) ∧
      lit2.lineno = lit.lineno + (f.natom + 2) :=
  load_one_consumed h

/-- Witness for C10 at a concrete input. -/
theorem claim_C10_witness :
    (LineIterator.mk ["next"] 3).lines =
        (LineIterator.mk ["1", "t", "H 1 2 3", "next"] 0).lines.drop
          ((XYZFrame.mk "t" [1] [(1, 2, 3)]).natom + 2) ∧
      (LineIterator.mk ["next"] 3).lineno =
        (LineIterator.mk ["1", "t", "H 1 2 3", "next"] 0).lineno +
          ((XYZFrame.mk "t" [1] [(1, 2, 3)]).natom + 2) :=
  claim_C10 1 (LineIterator.mk ["1", "t", "H 1 2 3", "next"] 0)
    (XYZFrame.mk "t" [1] [(1, 2, 3)]) (LineIterator.mk ["next"] 3) (by decide)

/-- C4: for every atom line, token 0 is resolved first by title-cased
symbol lookup and, only when the lookup reports not-found, by parsing it
directly as an integer atomic number. -/
theorem claim_C4 (ang : ℚ) (line w0 w1 w2 w3 : String) (rest : List String)
    (x y z : ℚ) (hsplit : pySplit line = w0 :: w1 :: w2 :: w3 :: rest)
    (hx : parseFloat w1 = some x) (hy : parseFloat w2 = some y)
    (hz : parseFloat w3 = some z) :
    (∀ n : Int, sym2num (pyTitle w0) = some n →
      load_one ang ⟨["1", "t", line], 0⟩ =
        .ok (⟨"t", [n], [(x * ang, y * ang, z * ang)]⟩, ⟨[], 3⟩)) ∧
    (sym2num (pyTitle w0) = none → ∀ m : Int, parseInt w0 = some m →
      load_one ang ⟨["1", "t", line], 0⟩ =
        .ok (⟨"t", [m], [(x * ang, y * ang, z * ang)]⟩, ⟨[], 3⟩)) := by
  have hrun : ∀ n : Int, resolveElement w0 = .ok n →
      load_one ang ⟨["1", "t", line], 0⟩ =
        .ok (⟨"t", [n], [(x * ang, y * ang, z * ang)]⟩, ⟨[], 3⟩) := by
    intro n hres
    have h1 : parseInt "1" = some ((1 : Nat) : Int) := by decide
    have hline : loadAtomLine ang line = .ok (n, x * ang, y * ang, z * ang) := by
      unfold loadAtomLine
      rw [hsplit]
      unfold loadWords
      simp only [List.get?, hres, hx, hy, hz, qmul_eq_mul]
    have hatoms : loadAtoms ang 1 ⟨[line], 2⟩ =
        .ok ([(n, x * ang, y * ang, z * ang)], ⟨[], 3⟩) := by
      simp [loadAtoms, LineIterator.next, hline]
    have hrun2 := load_one_unfold_ok ang "1" "t" [line] 0 1 h1 hatoms
    have hts : pyStrip "t" = "t" := by decide
    simpa [hts] using hrun2
  constructor
  · intro n hsym
    exact hrun n (by simp [resolveElement, hsym])
  · intro hnone m hm
    exact hrun m (by simp [resolveElement, hnone, hm])

/-- Witness for C4: the symbol C yields 6 and the bare number 6 yields 6. -/
theorem claim_C4_witness :
    load_one 1 ⟨["1", "t", "C 1.0 2.0 3.0"], 0⟩ =
        .ok (⟨"t", [6], [(1, 2, 3)]⟩, ⟨[], 3⟩) ∧
      load_one 1 ⟨["1", "t", "6 1.0 2.0 3.0"], 0⟩ =
        .ok (⟨"t", [6], [(1, 2, 3)]⟩, ⟨[], 3⟩) := by
  constructor
  · have h := (claim_C4 1 "C 1.0 2.0 3.0" "C" "1.0" "2.0" "3.0" [] 1 2 3
      (by decide) (by decide) (by decide) (by decide)).1 6 (by decide)
    exact h.trans (by simp)
  · have h := (claim_C4 1 "6 1.0 2.0 3.0" "6" "1.0" "2.0" "3.0" [] 1 2 3
      (by decide) (by decide) (by decide) (by decide)).2 (by decide) 6 (by decide)
    exact h.trans (by simp)

/-- C9: an atom line with more than four whitespace-separated tokens is
processed exactly as its first four tokens dictate; the extra tokens are
ignored and never cause an error. -/
theorem claim_C9 (ang : ℚ) (line w0 w1 w2 w3 : String) (rest : List String)
    (hsplit : pySplit line = w0 :: w1 :: w2 :: w3 :: rest) :
    loadAtomLine ang line = loadWords ang [w0, w1, w2, w3] ∧
    (∀ (n : Int) (x y z : ℚ), resolveElement w0 = .ok n → parseFloat w1 = some x →
      parseFloat w2 = some y → parseFloat w3 = some z →
      loadAtomLine ang line = .ok (n, x * ang, y * ang, z * ang)) := by
  have hkey : loadAtomLine ang line = loadWords ang [w0, w1, w2, w3] := by
    unfold loadAtomLine
    rw [hsplit]
    rfl
  refine ⟨hkey, ?_⟩
  intro n x y z hres hx hy hz
  rw [hkey]
  unfold loadWords
  simp only [List.get?, hres, hx, hy, hz, qmul_eq_mul]

/-- Witness for C9 at a six-token atom line. -/
theorem claim_C9_witness :
    loadAtomLine 1 "H 1 2 3 junk 99" = loadWords 1 ["H", "1", "2", "3"] ∧
      loadAtomLine 1 "H 1 2 3 junk 99" = .ok (1, 1, 2, 3) := by
  have h := claim_C9 1 "H 1 2 3 junk 99" "H" "1" "2" "3" ["junk", "99"] (by decide)
  exact ⟨h.1, (h.2 1 1 2 3 (by decide) (by decide) (by decide) (by decide)).trans
    (by simp)⟩

/-- C6: loading converts each coordinate from Angstrom to the internal
unit by multiplying with the length-unit constant, and dumping divides by
the same constant, so a coordinate equal to the constant is written as the
text 1.0000000000. -/
theorem claim_C6 (ang : ℚ) (hang : ang ≠ 0) :
    loadAtomLine ang "H 1.0000000000 0.0000000000 0.0000000000" = .ok (1, ang, 0, 0) ∧
    (dump_one ang ⟨"t", [1], [(ang, 0, 0)]⟩).2 = none ∧
    ((dump_one ang ⟨"t", [1], [(ang, 0, 0)]⟩).1.get? 2).bind
        (fun l => (pySplit l).get? 1) = some "1.0000000000" := by
  have hsplitH : pySplit "H 1.0000000000 0.0000000000 0.0000000000" =
      ["H", "1.0000000000", "0.0000000000", "0.0000000000"] := by decide
  have hres : resolveElement "H" = .ok 1 := by decide
  have hp1 : parseFloat "1.0000000000" = some 1 := by decide
  have hp0 : parseFloat "0.0000000000" = some 0 := by decide
  have hload : loadAtomLine ang "H 1.0000000000 0.0000000000 0.0000000000" =
      .ok (1, 1 * ang, 0 * ang, 0 * ang) := by
    unfold loadAtomLine
    rw [hsplitH]
    unfold loadWords
    simp only [List.get?, hres, hp1, hp0, qmul_eq_mul]
  have hline : mkAtomLine ang "H" (ang, 0, 0) =
      "H     1.0000000000    0.0000000000    0.0000000000" := by
    unfold mkAtomLine
    simp only [qdiv_eq_div, div_self hang, zero_div]
    decide
  have hd : dumpAtoms ang [1] [(ang, 0, 0)] =
      ([mkAtomLine ang "H" (ang, 0, 0)], none) := by
    simp [dumpAtoms, show num2sym 1 = some "H" from by decide]
  refine ⟨?_, ?_, ?_⟩
  · rw [hload, one_mul, zero_mul]
  · show (dumpAtoms ang [1] [(ang, 0, 0)]).2 = none
    rw [hd]
  · show ((natRepr 1 :: (if ("t" : String) = "" then "Created with IOData" else "t") ::
        (dumpAtoms ang [1] [(ang, 0, 0)]).1).get? 2).bind
        (fun l => (pySplit l).get? 1) = some "1.0000000000"
    rw [hd, hline]
    decide

/-- Witness for C6 at the concrete constant 2. -/
theorem claim_C6_witness :
    loadAtomLine 2 "H 1.0000000000 0.0000000000 0.0000000000" = .ok (1, 2, 0, 0) ∧
    (dump_one 2 ⟨"t", [1], [(2, 0, 0)]⟩).2 = none ∧
    ((dump_one 2 ⟨"t", [1], [(2, 0, 0)]⟩).1.get? 2).bind
        (fun l => (pySplit l).get? 1) = some "1.0000000000" :=
  claim_C6 2 (by decide)

/-- C5: dump_one writes exactly the atom count plus two lines: the count,
then the title with the default placeholder substituted for an empty one,
then one formatted line per atom, the symbol left-justified to width two
and the three fixed-point coordinate fields right-justified to width 15
with ten fractional digits, separated by single spaces. -/
theorem claim_C5 (ang : ℚ) (d : XYZFrame)
    (hlen : d.atnums.length = d.atcoords.length)
    (htab : ∀ n ∈ d.atnums, (num2sym n).isSome) :
    (dump_one ang d).2 = none ∧
    (dump_one ang d).1 =
      natRepr d.natom :: (if d.title = "" then "Created with IOData" else d.title) ::
        List.zipWith (fun n c => mkAtomLine ang ((num2sym n).getD "") c)
          d.atnums d.atcoords ∧
    (dump_one ang d).1.length = d.natom + 2 := by
  have hd := dumpAtoms_closed ang d.atnums d.atcoords hlen htab
  refine ⟨?_, ?_, ?_⟩
  · show (dumpAtoms ang d.atnums d.atcoords).2 = none
    rw [hd]
  · show natRepr d.natom :: (if d.title = "" then "Created with IOData" else d.title) ::
        (dumpAtoms ang d.atnums d.atcoords).1 = _
    rw [hd]
  · show (natRepr d.natom :: (if d.title = "" then "Created with IOData" else d.title) ::
        (dumpAtoms ang d.atnums d.atcoords).1).length = d.natom + 2
    rw [hd]
    simp only [List.length_cons, List.length_zipWith, XYZFrame.natom, hlen,
      Nat.min_self]

/-- Witness for C5 at a concrete record. -/
theorem claim_C5_witness :
    (dump_one 1 (XYZFrame.mk "" [6] [(1, 2, 3)])).2 = none ∧
    (dump_one 1 (XYZFrame.mk "" [6] [(1, 2, 3)])).1 =
      natRepr (XYZFrame.mk "" [6] [(1, 2, 3)]).natom ::
        (if (XYZFrame.mk "" [6] [(1, 2, 3)]).title = "" then "Created with IOData"
          else (XYZFrame.mk "" [6] [(1, 2, 3)]).title) ::
        List.zipWith (fun n c => mkAtomLine 1 ((num2sym n).getD "") c)
          (XYZFrame.mk "" [6] [(1, 2, 3)]).atnums
          (XYZFrame.mk "" [6] [(1, 2, 3)]).atcoords ∧
    (dump_one 1 (XYZFrame.mk "" [6] [(1, 2, 3)])).1.length =
      (XYZFrame.mk "" [6] [(1, 2, 3)]).natom + 2 :=
  claim_C5 1 (XYZFrame.mk "" [6] [(1, 2, 3)]) (by decide) (by decide)

/-- C8: on a source that is the concatenation of exactly two complete
single frames, the multi-frame reader yields exactly the two records in
file order and then terminates its sequence cleanly. -/
theorem claim_C8 (ang : ℚ) (L1 L2 : List String) (f1 f2 : XYZFrame)
    (h1 : load_one ang ⟨L1, 0⟩ = .ok (f1, ⟨[], L1.length⟩))
    (h2 : load_one ang ⟨L2, 0⟩ = .ok (f2, ⟨[], L2.length⟩)) :
    load_many ang ⟨L1 ++ L2, 0⟩ = ([f1, f2], none) := by
  have e1 : L1.length = f1.natom + 2 := by
    have := (load_one_consumed h1).2
    simpa using this
  have e2 : L2.length = f2.natom + 2 := by
    have := (load_one_consumed h2).2
    simpa using this
  have hx1 := load_one_extend ang h1 L2 0
  simp only [List.nil_append, Nat.zero_add] at hx1
  have hx2 : ∀ m, load_one ang ⟨L2, m⟩ = .ok (f2, ⟨[], m + (f2.natom + 2)⟩) := by
    intro m
    have := load_one_extend ang h2 [] m
    simpa using this
  unfold load_many
  have hfuel : (LineIterator.mk (L1 ++ L2) 0).lines.length + 1 =
      (f1.natom + f2.natom + 4) + 1 := by
    simp only [List.length_append]
    omega
  rw [hfuel, loadManyAux]
  simp only [hx1]
  have hstep2 : f1.natom + f2.natom + 4 = (f1.natom + f2.natom + 3) + 1 := by omega
  rw [hstep2, loadManyAux]
  simp only [hx2 (f1.natom + 2)]
  have hstep3 : f1.natom + f2.natom + 3 = (f1.natom + f2.natom + 2) + 1 := by omega
  rw [hstep3, loadManyAux]
  simp [load_one, LineIterator.next]

/-- Witness for C8 at a concrete two-frame trajectory. -/
theorem claim_C8_witness :
    load_many 1 ⟨["1", "t", "H 1 2 3", "0", "u"], 0⟩ =
      ([XYZFrame.mk "t" [1] [(1, 2, 3)], XYZFrame.mk "u" [] []], none) := by
  have h := claim_C8 1 ["1", "t", "H 1 2 3"] ["0", "u"] (XYZFrame.mk "t" [1] [(1, 2, 3)])
    (XYZFrame.mk "u" [] []) (by decide) (by decide)
  simpa using h

/-- C2 as amended: the single-frame reader signals exhaustion on an empty
source, and it signals the same exhaustion, not a malformed-input error,
when the count line was read but the title line or some of the expected
atom lines are missing; consequently the multi-frame reader treats the
truncated trailing frame as normal termination of its sequence. -/
theorem claim_C2_amended (ang : ℚ) (l0 : String) (rest : List String) (N : Int) (k : Nat)
    (hparse : parseInt l0 = some N) (hN : 0 ≤ N) (hshort : rest.length < N.toNat + 1)
    (hok : ∀ l ∈ rest.drop 1, ∃ a, loadAtomLine ang l = .ok a) :
    load_one ang ⟨[], k⟩ = .error (.stopIteration, ⟨[], k⟩) ∧
    (∃ litF, load_one ang ⟨l0 :: rest, k⟩ = .error (.stopIteration, litF)) ∧
    load_many ang ⟨l0 :: rest, 0⟩ = ([], none) := by
  have hmid : ∀ m, ∃ litF,
      load_one ang ⟨l0 :: rest, m⟩ = .error (.stopIteration, litF) := by
    intro m
    cases rest with
    | nil =>
      refine ⟨⟨[], m + 1⟩, ?_⟩
      simp [load_one, LineIterator.next, hparse]
    | cons l1 atoms =>
      have hatoms : atoms.length < N.toNat := by
        simp only [List.length_cons] at hshort
        omega
      obtain ⟨litF, hF⟩ := loadAtoms_exhaust ang atoms N.toNat (m + 2) hatoms
        (fun l hl => hok l (by simpa using hl))
      refine ⟨litF, ?_⟩
      simp only [load_one, LineIterator.next, hparse]
      rw [if_neg (by omega : ¬ N < 0)]
      simp only [hF]
  refine ⟨by simp [load_one, LineIterator.next], hmid k, ?_⟩
  obtain ⟨litF, hF⟩ := hmid 0
  unfold load_many
  have hfuel : (LineIterator.mk (l0 :: rest) 0).lines.length + 1 =
      (rest.length + 1) + 1 := by simp
  rw [hfuel, loadManyAux]
  simp only [hF]

/-- Witness for C2 at a concrete truncated frame. -/
theorem claim_C2_witness :
    load_one 1 ⟨[], 5⟩ = .error (.stopIteration, ⟨[], 5⟩) ∧
    (∃ litF, load_one 1 ⟨["2", "t", "H 1 2 3"], 5⟩ = .error (.stopIteration, litF)) ∧
    load_many 1 ⟨["2", "t", "H 1 2 3"], 0⟩ = ([], none) := by
  apply claim_C2_amended 1 "2" ["t", "H 1 2 3"] 2 5 (by decide) (by decide) (by decide)
  intro l hl
  have hl2 : l = "H 1 2 3" := by simpa using hl
  subst hl2
  exact ⟨(1, 1, 2, 3), by decide⟩

/-- Counterexample to C2 as stated: with the count line read and fewer
atom lines than announced remaining, load_one signals the exhaustion
signal, not a malformed-input error. -/
theorem claim_C2_counterexample :
    load_one 1 ⟨["1", "t"], 0⟩ = .error (.stopIteration, ⟨[], 2⟩) := by decide

/-- C3 as amended: a malformed count line or atom line makes load_one
propagate the numeric-parse or index error raised at that line; the line
source is then positioned exactly at the offending line, identifying it,
but the error value itself is untagged: the position-carrying error
mechanism of the line source is never invoked. -/
theorem claim_C3_amended (ang : ℚ) (l0 l1 : String) (good : List String) (bad : String)
    (rest2 : List String) (k : Nat) (N : Int) (e : PyErr) :
    (parseInt l0 = none →
      load_one ang ⟨l0 :: l1 :: (good ++ bad :: rest2), k⟩ =
        .error (.valueError l0, ⟨l1 :: (good ++ bad :: rest2), k + 1⟩) ∧
      (PyErr.valueError l0).hasPositionTag = false) ∧
    (parseInt l0 = some N → 0 ≤ N → good.length < N.toNat →
      (∀ l ∈ good, ∃ a, loadAtomLine ang l = .ok a) →
      loadAtomLine ang bad = .error e →
      load_one ang ⟨l0 :: l1 :: (good ++ bad :: rest2), k⟩ =
        .error (e, ⟨rest2, k + good.length + 3⟩) ∧
      e.hasPositionTag = false) := by
  constructor
  · intro hp
    refine ⟨?_, rfl⟩
    simp [load_one, LineIterator.next, hp]
  · intro hp hN hlen hgood hbad
    refine ⟨?_, loadAtomLine_err_untagged hbad⟩
    simp only [load_one, LineIterator.next, hp]
    rw [if_neg (by omega : ¬ N < 0)]
    have hrec := loadAtoms_err ang good bad rest2 N.toNat (k + 2) e hlen hgood hbad
    simp only [hrec]
    have harith : k + 2 + good.length + 1 = k + good.length + 3 := by omega
    rw [harith]

/-- Witness for C3 at a malformed count line and a short atom line. -/
theorem claim_C3_witness :
    (load_one 1 ⟨["abc", "t", "H 1 2 3"], 0⟩ =
        .error (.valueError "abc", ⟨["t", "H 1 2 3"], 1⟩) ∧
      (PyErr.valueError "abc").hasPositionTag = false) ∧
    (load_one 1 ⟨["2", "t", "H 1 2 3", "He"], 0⟩ =
        .error (.indexError, ⟨[], 4⟩) ∧
      PyErr.indexError.hasPositionTag = false) := by
  constructor
  · have h := (claim_C3_amended 1 "abc" "t" [] "H 1 2 3" [] 0 0 PyErr.indexError).1
      (by decide)
    exact ⟨by simpa using h.1, h.2⟩
  · have h := (claim_C3_amended 1 "2" "t" ["H 1 2 3"] "He" [] 0 2 PyErr.indexError).2
      (by decide) (by decide) (by decide)
      (fun l hl => by
        have hl2 : l = "H 1 2 3" := by simpa using hl
        subst hl2
        exact ⟨(1, 1, 2, 3), by decide⟩)
      (by decide)
    exact ⟨by simpa using h.1, h.2⟩

/-- Counterexample to C3 as stated: the error surfaced for a malformed
count line propagates while the source points at that line, but the error
value carries no source-position tag. -/
theorem claim_C3_counterexample :
    load_one 1 ⟨["abc", "t"], 0⟩ = .error (.valueError "abc", ⟨["t"], 1⟩) ∧
    (PyErr.valueError "abc").hasPositionTag = false :=
  ⟨by decide, by decide⟩

/-- C1 as amended: dumping a record whose atomic numbers are all in the
element table and whose title fits on one line, then loading the result,
reproduces the atomic numbers exactly, each coordinate up to the rounding
induced by the ten-fractional-digit fixed-point field, and the title up to
stripping of its leading and trailing whitespace, an empty title coming
back as the default placeholder. -/
theorem claim_C1_amended (ang : ℚ) (_ha : 0 < ang) (d : XYZFrame)
    (hlen : d.atnums.length = d.atcoords.length)
    (htab : ∀ n ∈ d.atnums, (num2sym n).isSome)
    (_htitle : ∀ c ∈ d.title.data, c ≠ '\n') :
    (dump_one ang d).2 = none ∧
    load_one ang ⟨(dump_one ang d).1, 0⟩ =
      .ok (⟨(if d.title = "" then "Created with IOData" else pyStrip d.title),
            d.atnums,
            d.atcoords.map (fun c => (fixedRound10 (c.1 / ang) * ang,
              fixedRound10 (c.2.1 / ang) * ang, fixedRound10 (c.2.2 / ang) * ang))⟩,
          ⟨[], d.natom + 2⟩) := by
  obtain ⟨main1, main2⟩ := dumpAtoms_ok_loadAtoms ang d.atnums d.atcoords hlen htab
  constructor
  · show (dumpAtoms ang d.atnums d.atcoords).2 = none
    exact main1
  · have hload := main2 [] 2
    rw [List.append_nil] at hload
    have hone := load_one_unfold_ok ang (natRepr d.natom)
      (if d.title = "" then "Created with IOData" else d.title)
      (dumpAtoms ang d.atnums d.atcoords).1 0 d.atnums.length
      (parseInt_natRepr d.natom) hload
    have hlines : (dump_one ang d).1 =
        natRepr d.natom :: (if d.title = "" then "Created with IOData" else d.title) ::
          (dumpAtoms ang d.atnums d.atcoords).1 := rfl
    rw [hlines, hone]
    have ht : pyStrip (if d.title = "" then "Created with IOData" else d.title) =
        if d.title = "" then "Created with IOData" else pyStrip d.title := by
      by_cases h : d.title = ""
      · rw [if_pos h, if_pos h]
        decide
      · rw [if_neg h, if_neg h]
    have hfst := zip_pair_map_fst
      (fun (_ : Int) (c : ℚ × ℚ × ℚ) => (fixedRound10 (c.1 / ang) * ang,
        fixedRound10 (c.2.1 / ang) * ang, fixedRound10 (c.2.2 / ang) * ang))
      d.atnums d.atcoords hlen
    have hsnd := zip_pair_map_snd
      (fun (c : ℚ × ℚ × ℚ) => (fixedRound10 (c.1 / ang) * ang,
        fixedRound10 (c.2.1 / ang) * ang, fixedRound10 (c.2.2 / ang) * ang))
      d.atnums d.atcoords hlen
    have harith : 2 + d.atnums.length = d.natom + 2 := by
      show 2 + d.atnums.length = d.atnums.length + 2
      omega
    rw [ht, hfst, hsnd, harith]

/-- Witness for C1 at a concrete two-atom record. -/
theorem claim_C1_witness :
    (dump_one 1 (XYZFrame.mk "water" [8, 1] [(1, 2, 3), (0, 0, 0)])).2 = none ∧
    load_one 1 ⟨(dump_one 1 (XYZFrame.mk "water" [8, 1] [(1, 2, 3), (0, 0, 0)])).1, 0⟩ =
      .ok (⟨(if ("water" : String) = "" then "Created with IOData" else pyStrip "water"),
            [8, 1],
            [((1 : ℚ), (2 : ℚ), (3 : ℚ)), (0, 0, 0)].map
              (fun c => (fixedRound10 (c.1 / 1) * 1,
                fixedRound10 (c.2.1 / 1) * 1, fixedRound10 (c.2.2 / 1) * 1))⟩,
          ⟨[], (XYZFrame.mk "water" [8, 1] [(1, 2, 3), (0, 0, 0)]).natom + 2⟩) :=
  claim_C1_amended 1 (by decide) (XYZFrame.mk "water" [8, 1] [(1, 2, 3), (0, 0, 0)])
    (by decide) (by decide) (by decide)

/-- Counterexample to C1 as stated: a title with surrounding whitespace
does not come back unchanged; the loaded title is its stripped form. -/
theorem claim_C1_counterexample :
    (dump_one 1 (XYZFrame.mk " x " [] [])).2 = none ∧
    load_one 1 ⟨(dump_one 1 (XYZFrame.mk " x " [] [])).1, 0⟩ =
      .ok (⟨"x", [], []⟩, ⟨[], 2⟩) ∧
    ("x" : String) ≠ " x " :=
  ⟨by decide, by decide, by decide⟩

end Xyz
